import Mathlib

set_option maxRecDepth 8000

/-! Verification of the search/navigation core of microxml (mxml-search.c).

The document tree is embedded as a heap: a list of node records indexed by
`Nat` node ids.  C pointers are `Option Nat`, with `none` playing the role of
`NULL`; dereferencing an id that is not in the heap (which in C would be
undefined behaviour) uniformly yields `none` results.  The unbounded C
`while` loops are embedded with explicit fuel, so that every definition is
computable and kernel-reducible. -/

/-- Node kinds.  The source distinguishes only `MXML_ELEMENT` and `MXML_TEXT`;
all remaining kinds of the (absent) header behave alike here and are collapsed
into `otherKind`. -/
inductive MxmlType where
  | element
  | text
  | otherKind
deriving DecidableEq

/-- A node record: the discriminator, the element payload (`name`, `attrs`),
the text payload (`text`), and the five structural links of `mxml_node_t`. -/
structure MxmlNode where
  type : MxmlType
  name : Option String := none
  attrs : List (String × String) := []
  text : Option String := none
  child : Option Nat := none
  last_child : Option Nat := none
  next : Option Nat := none
  prev : Option Nat := none
  parent : Option Nat := none
deriving DecidableEq

/-- The heap of nodes; node ids are indices into `nodes`. -/
structure MxmlTree where
  nodes : List MxmlNode

/-- Dereference a node id (a non-NULL pointer). -/
def MxmlTree.get (t : MxmlTree) (i : Nat) : Option MxmlNode :=
  t.nodes[i]?

/-- Modelled from the spec: the numeric value of the `MXML_DESCEND`
(descend-always) policy constant, which lives in the missing header
`microxml.h`.  §4.1 needs descend-always and descend-first to be distinct and
both truthy, and no-descend to be the untruthy value. -/
def MXML_DESCEND : Int := 1

/-- Modelled from the spec: the numeric value of `MXML_NO_DESCEND` (see
`MXML_DESCEND`). -/
def MXML_NO_DESCEND : Int := 0

/-- Modelled from the spec: the numeric value of `MXML_DESCEND_FIRST` (see
`MXML_DESCEND`). -/
def MXML_DESCEND_FIRST : Int := -1

/-- The ascent loop of `mxmlWalkNext` (mxml-search.c:205-215): from the
current ancestor, return its next sibling if it has one, otherwise move to
the parent unless that parent is `top` or absent. -/
def walkAscend (t : MxmlTree) : Nat → Nat → Option Nat → Option Nat
  | 0, _, _ => none
  | f+1, i, top =>
    match t.get i with
    | none => none
    | some n =>
      match n.next with
      | some j => some j
      | none =>
        match n.parent with
        | none => none
        | some p => if some p = top then none else walkAscend t f p top

/-- `mxmlWalkNext` (mxml-search.c:192-219). -/
def mxmlWalkNext (t : MxmlTree) (node top : Option Nat) (descend : Int) : Option Nat :=
  match node with
  | none => none
  | some i =>
    match t.get i with
    | none => none
    | some n =>
      if n.child.isSome ∧ descend ≠ 0 then n.child
      else if some i = top then none
      else if n.next.isSome then n.next
      else
        match n.parent with
        | none => none
        | some p => if some p = top then none else walkAscend t t.nodes.length p top

/-- The descent loop of `mxmlWalkPrev` (mxml-search.c:243-244): follow
`last_child` links down to the deepest last child. -/
def lastDescend (t : MxmlTree) : Nat → Nat → Option Nat
  | 0, _ => none
  | f+1, i =>
    match t.get i with
    | none => none
    | some n =>
      match n.last_child with
      | none => some i
      | some l => lastDescend t f l

/-- `mxmlWalkPrev` (mxml-search.c:230-255). -/
def mxmlWalkPrev (t : MxmlTree) (node top : Option Nat) (descend : Int) : Option Nat :=
  match node with
  | none => none
  | some i =>
    if some i = top then none
    else
      match t.get i with
      | none => none
      | some n =>
        match n.prev with
        | some j =>
          match t.get j with
          | none => none
          | some m =>
            if m.last_child.isSome ∧ descend ≠ 0 then
              match m.last_child with
              | none => none
              | some l => lastDescend t t.nodes.length l
            else some j
        | none => if n.parent ≠ top then n.parent else none

/-- Transcribed from the words of the spec (§4.1, `WalkNext`'s final clause):
"ascend through `parent` links — but stop (return none) if ascent would pass
`top` or if a parent is absent — until an ancestor with a next sibling is
found, and return that sibling."  Each step moves to the parent (none if
absent or equal to `top`) and returns that ancestor's next sibling when it
has one. -/
def specAscend (t : MxmlTree) : Nat → Nat → Option Nat → Option Nat
  | 0, _, _ => none
  | f+1, i, top =>
    match t.get i with
    | none => none
    | some n =>
      match n.parent with
      | none => none
      | some p =>
        if some p = top then none
        else
          match t.get p with
          | none => none
          | some q =>
            match q.next with
            | some m => some m
            | none => specAscend t f p top

/-- Transcribed from the words of the spec (§4.1): the `WalkNext` algorithm
exactly as the spec states it, branch by branch, with the ascent clause given
by `specAscend`. -/
def walkNextFromSpec (t : MxmlTree) (node top : Option Nat) (descend : Int) : Option Nat :=
  match node with
  | none => none
  | some i =>
    match t.get i with
    | none => none
    | some n =>
      if n.child.isSome ∧ descend ≠ 0 then n.child
      else if some i = top then none
      else if n.next.isSome then n.next
      else specAscend t t.nodes.length i top

/-- Modelled from the spec: the attribute-value-by-name lookup
(`mxmlElementGetAttrValue`, §6 "consumed from the tree collaborator"), whose
implementation is outside this core: the value mapped to the given attribute
name in the node's attribute list, if present. -/
def mxmlElementGetAttrValue (n : MxmlNode) (a : String) : Option String :=
  n.attrs.lookup a

/-- The match test of `mxmlFindElement`'s loop body (mxml-search.c:59-71):
an element node with a present name that matches `name` (or `name` is the
wildcard `none`), and — when `attr` is given — carrying that attribute with a
value equal to `value` (or `value` is the wildcard `none`). -/
def elemMatch (n : MxmlNode) (name attr value : Option String) : Bool :=
  match n.type, n.name with
  | MxmlType.element, some en =>
    decide (name = none ∨ name = some en) &&
    (match attr with
     | none => true
     | some a =>
       match mxmlElementGetAttrValue n a with
       | some temp => decide (value = none ∨ value = some temp)
       | none => false)
  | _, _ => false

/-- The match test of `mxmlFindElementText`'s loop body (mxml-search.c:106-108):
a text node with a present payload equal to `text` (the `none` case of `text`
is already rejected before the loop). -/
def textMatch (n : MxmlNode) (text : Option String) : Bool :=
  match n.type, n.text with
  | MxmlType.text, some s => decide (text = none ∨ text = some s)
  | _, _ => false

/-- The shared shape of the two search loops (mxml-search.c:57-77 and
104-117): test the current candidate with `p`; on failure advance with a full
`mxmlWalkNext` when the caller's policy is `MXML_DESCEND`, and with the plain
`next` link otherwise. -/
def searchLoop (t : MxmlTree) (top : Option Nat) (p : MxmlNode → Bool)
    (descend : Int) : Nat → Option Nat → Option Nat
  | _, none => none
  | 0, some _ => none
  | f+1, some i =>
    match t.get i with
    | none => none
    | some n =>
      if p n then some i
      else searchLoop t top p descend f
        (if descend = MXML_DESCEND then mxmlWalkNext t (some i) top MXML_DESCEND
         else n.next)

/-- `mxmlFindElement` (mxml-search.c:42-80), with explicit loop fuel. -/
def mxmlFindElement (t : MxmlTree) (fuel : Nat) (node top : Option Nat)
    (name attr value : Option String) (descend : Int) : Option Nat :=
  if node = none ∨ top = none ∨ (attr = none ∧ value ≠ none) then none
  else searchLoop t top (fun n => elemMatch n name attr value) descend fuel
    (mxmlWalkNext t node top descend)

/-- `mxmlFindElementText` (mxml-search.c:93-119), with explicit loop fuel. -/
def mxmlFindElementText (t : MxmlTree) (fuel : Nat) (node top : Option Nat)
    (text : Option String) (descend : Int) : Option Nat :=
  if node = none ∨ top = none ∨ text = none then none
  else searchLoop t top (fun n => textMatch n text) descend fuel
    (mxmlWalkNext t node top descend)

/-- The `k`-th candidate examined by a search loop that starts at `start` and
advances with the loop's rule: a full bounded walk under `MXML_DESCEND`, the
plain `next` link otherwise. -/
def nthCand (t : MxmlTree) (top : Option Nat) (descend : Int)
    (start : Option Nat) : Nat → Option Nat
  | 0 => start
  | k+1 =>
    match nthCand t top descend start k with
    | none => none
    | some i =>
      match t.get i with
      | none => none
      | some n =>
        if descend = MXML_DESCEND then mxmlWalkNext t (some i) top MXML_DESCEND
        else n.next

/-- Transcribed from the words of the claim (spec §4.2): the constraint a
candidate must satisfy — kind is Element; its name equals `name`, or any name
is accepted when `name` is absent; it has attribute `attr` when `attr` is
given; and its `attr` value equals `value` exactly when `value` is also
given. -/
def claimElemMatch (n : MxmlNode) (name attr value : Option String) : Bool :=
  decide (n.type = MxmlType.element) &&
  (match name with
   | none => true
   | some s => n.name == some s) &&
  (match attr with
   | none => true
   | some a => (mxmlElementGetAttrValue n a).isSome) &&
  (match value with
   | none => true
   | some v =>
     match attr with
     | none => false
     | some a => mxmlElementGetAttrValue n a == some v)

/-- Data-model conformance used to compare the code's match test with the
spec's wording: every element node stored in the tree carries a name
(spec §3: `name` is present for `Element` nodes). -/
def elemNamedB (t : MxmlTree) : Bool :=
  t.nodes.all fun n =>
    match n.type with
    | MxmlType.element => n.name.isSome
    | _ => true

/-- Does the path start with the two-character wildcard marker `*/`
(mxml-search.c:150)? -/
def markerQ : List Char → Bool
  | '*' :: '/' :: _ => true
  | _ => false

/-- The post-loop result adjustment of `mxmlFindPath` (mxml-search.c:177-180):
return the first child when it exists and is not an element, otherwise the
node itself. -/
def finalValue (t : MxmlTree) (node : Nat) : Option Nat :=
  match t.get node with
  | none => none
  | some n =>
    match n.child with
    | none => some node
    | some c =>
      match t.get c with
      | none => none
      | some m => if m.type ≠ MxmlType.element then some c else some node

/-- The segment loop of `mxmlFindPath` (mxml-search.c:148-175): consume an
optional `*/` marker (choosing the descend mode), slice the segment up to the
next slash or the end, reject an empty or over-long (≥ 256 bytes) segment,
and hop with `mxmlFindElement(node, node, segment, NULL, NULL, descend)`.
The loop fuel only guards against ill-founded recursion; each iteration
strictly shortens the path. -/
def findPathLoop (t : MxmlTree) (ef : Nat) : Nat → Nat → List Char → Option Nat
  | 0, _, _ => none
  | f+1, node, path =>
    if path.isEmpty then finalValue t node
    else
      let descend : Int := if markerQ path then MXML_DESCEND else MXML_DESCEND_FIRST
      let rest := if markerQ path then path.drop 2 else path
      let seg := rest.takeWhile (fun c => c ≠ '/')
      let tail1 := rest.dropWhile (fun c => c ≠ '/')
      if seg.isEmpty ∨ 256 ≤ seg.length then none
      else
        let nextPath := match tail1 with | [] => ([] : List Char) | _ :: r => r
        match mxmlFindElement t ef (some node) (some node) (some (String.mk seg))
            none none descend with
        | none => none
        | some nd => findPathLoop t ef f nd nextPath

/-- `mxmlFindPath` (mxml-search.c:134-181); the path is a C string modelled
as a list of characters (`none` for a NULL pointer).  `ef` is the fuel handed
to each inner `mxmlFindElement` call. -/
def mxmlFindPath (t : MxmlTree) (ef : Nat) (top : Option Nat)
    (path : Option (List Char)) : Option Nat :=
  match top, path with
  | some ti, some p =>
    if p.isEmpty then none else findPathLoop t ef (p.length + 1) ti p
  | _, _ => none

/-- Transcribed from the words of the claim (spec §4.4): parse the whole path
into (mode, segment) pairs up front — a segment prefixed by the `*/` marker
gets the descend-always mode, every other segment descend-first; a slash at
the current position (empty segment) or a segment of 256 bytes or more is a
parse failure. -/
def specParse : Nat → List Char → Option (List (Int × List Char))
  | 0, _ => none
  | f+1, path =>
    if path.isEmpty then some []
    else
      let mode : Int := if markerQ path then MXML_DESCEND else MXML_DESCEND_FIRST
      let rest := if markerQ path then path.drop 2 else path
      let seg := rest.takeWhile (fun c => c ≠ '/')
      let tail1 := rest.dropWhile (fun c => c ≠ '/')
      if seg.isEmpty ∨ 256 ≤ seg.length then none
      else
        let nextPath := match tail1 with | [] => ([] : List Char) | _ :: r => r
        match specParse f nextPath with
        | none => none
        | some segs => some ((mode, seg) :: segs)

/-- Transcribed from the words of the claim (spec §4.4): perform one
`FindElement` hop per parsed segment, with both the `node` and the `top`
argument equal to the currently resolved node, failing as soon as a hop
fails. -/
def specHops (t : MxmlTree) (ef : Nat) : List (Int × List Char) → Nat → Option Nat
  | [], node => some node
  | (mode, seg) :: segs, node =>
    match mxmlFindElement t ef (some node) (some node) (some (String.mk seg))
        none none mode with
    | none => none
    | some nd => specHops t ef segs nd

/-- Transcribed from the words of the claim (spec §4.4): `FindPath` as
parse-everything-then-hop, followed by the final first-child adjustment. -/
def specFindPath (t : MxmlTree) (ef : Nat) (top : Option Nat)
    (path : Option (List Char)) : Option Nat :=
  match top, path with
  | some ti, some p =>
    if p.isEmpty then none
    else
      match specParse (p.length + 1) p with
      | none => none
      | some segs =>
        match specHops t ef segs ti with
        | none => none
        | some nd => finalValue t nd
  | _, _ => none

/-- Does the list end with the two characters `/ *` (that is, its final
segment position holds exactly the one-character segment `*`)? -/
def endsSlashStar (p : List Char) : Bool :=
  match p.reverse with
  | '*' :: '/' :: _ => true
  | _ => false

/-- Check a condition on the target of an optional pointer (`true` for NULL). -/
def optAll (o : Option Nat) (f : Nat → Bool) : Bool :=
  match o with
  | none => true
  | some x => f x

/-- Local well-formedness of one node, given a rank (`d`) witnessing
acyclicity: every stored link targets a live node; a parent has a strictly
smaller rank; a first child points back with `parent` and has no `prev`; a
next sibling points back with `prev`, shares the parent and the rank; a last
child has no `next` and points back with `parent`; `child` and `last_child`
are present together; and a child with no `next` sibling is its parent's
`last_child`.  These are the spec's §3 data-model invariants in local form. -/
def nodeOk (t : MxmlTree) (d : Nat → Nat) (i : Nat) (n : MxmlNode) : Bool :=
  decide (d i < t.nodes.length) &&
  optAll n.parent (fun p =>
    match t.get p with
    | some _ => decide (d p < d i)
    | none => false) &&
  optAll n.child (fun c =>
    match t.get c with
    | some m => decide (m.parent = some i ∧ m.prev = none)
    | none => false) &&
  optAll n.next (fun j =>
    match t.get j with
    | some m => decide (m.prev = some i ∧ m.parent = n.parent ∧ d j = d i)
    | none => false) &&
  optAll n.last_child (fun l =>
    match t.get l with
    | some m => decide (m.next = none ∧ m.parent = some i)
    | none => false) &&
  decide ((n.child = none) ↔ (n.last_child = none)) &&
  (match n.next, n.parent with
   | none, some p =>
     match t.get p with
     | some q => decide (q.last_child = some i)
     | none => false
   | _, _ => true)

/-- The tree satisfies the data-model invariants, as witnessed by the rank
function `d`. -/
def wfB (t : MxmlTree) (d : Nat → Nat) : Bool :=
  (List.range t.nodes.length).all fun i =>
    match t.get i with
    | none => true
    | some n => nodeOk t d i n

/-- The tree satisfies the data-model invariants of spec §3. -/
def WF (t : MxmlTree) : Prop := ∃ d, wfB t d = true

/-- `i` is a strict descendant of `top`: following `parent` links from `i`
reaches `top` (fuel-bounded; `t.nodes.length` is always enough fuel on a
well-formed tree). -/
def isUnder (t : MxmlTree) : Nat → Nat → Nat → Bool
  | 0, _, _ => false
  | f+1, i, top =>
    match t.get i with
    | none => false
    | some n =>
      match n.parent with
      | none => false
      | some p => decide (p = top) || isUnder t f p top

/-- `IsLastChain t i k`: following `last_child` links from `i` ends at `k`
(which has no `last_child`). -/
inductive IsLastChain (t : MxmlTree) : Nat → Nat → Prop where
  | base : ∀ i n, t.get i = some n → n.last_child = none → IsLastChain t i i
  | step : ∀ i n j k, t.get i = some n → n.last_child = some j →
      IsLastChain t j k → IsLastChain t i k

/-- Example: a root element with a single child element. -/
def tPairN0 : MxmlNode :=
  { type := MxmlType.element, name := some "r", child := some 1, last_child := some 1 }

/-- The single child of `tPair`'s root. -/
def tPairN1 : MxmlNode :=
  { type := MxmlType.element, name := some "a", parent := some 0 }

/-- The two-node example tree. -/
def tPair : MxmlTree := ⟨[tPairN0, tPairN1]⟩

/-- A rank function witnessing `tPair`'s well-formedness. -/
def dPair : Nat → Nat := fun i => i

/-- Example: a root element with two child elements. -/
def tTrioN0 : MxmlNode :=
  { type := MxmlType.element, name := some "r", child := some 1, last_child := some 2 }

/-- First child of `tTrio`'s root. -/
def tTrioN1 : MxmlNode :=
  { type := MxmlType.element, name := some "a", parent := some 0, next := some 2 }

/-- Second child of `tTrio`'s root. -/
def tTrioN2 : MxmlNode :=
  { type := MxmlType.element, name := some "b", parent := some 0, prev := some 1 }

/-- The three-node example tree. -/
def tTrio : MxmlTree := ⟨[tTrioN0, tTrioN1, tTrioN2]⟩

/-- A rank function witnessing `tTrio`'s well-formedness. -/
def dTrio : Nat → Nat := fun i => if i = 0 then 0 else 1

/-- Example (spec §8): a parent with `<a id="1"/><a id="2"/>`. -/
def tAttrN0 : MxmlNode :=
  { type := MxmlType.element, name := some "p", child := some 1, last_child := some 2 }

/-- `<a id="1"/>`. -/
def tAttrN1 : MxmlNode :=
  { type := MxmlType.element, name := some "a", attrs := [("id", "1")],
    parent := some 0, next := some 2 }

/-- `<a id="2"/>`. -/
def tAttrN2 : MxmlNode :=
  { type := MxmlType.element, name := some "a", attrs := [("id", "2")],
    parent := some 0, prev := some 1 }

/-- The attribute-search example tree. -/
def tAttr : MxmlTree := ⟨[tAttrN0, tAttrN1, tAttrN2]⟩

/-- A rank function witnessing `tAttr`'s well-formedness. -/
def dAttr : Nat → Nat := fun i => if i = 0 then 0 else 1

/-- Example: root holding `<p><x/></p><x/>` — a matching element (`tUncleN2`)
sits outside `tUncleN1`'s children. -/
def tUncleN0 : MxmlNode :=
  { type := MxmlType.element, name := some "r", child := some 1, last_child := some 2 }

/-- The `<p>` element, whose only child is `tUncleN3`. -/
def tUncleN1 : MxmlNode :=
  { type := MxmlType.element, name := some "p", parent := some 0, next := some 2,
    child := some 3, last_child := some 3 }

/-- The second `<x/>`, a sibling of `<p>`, not one of its children. -/
def tUncleN2 : MxmlNode :=
  { type := MxmlType.element, name := some "x", parent := some 0, prev := some 1 }

/-- The first `<x/>`, the only child of `<p>`. -/
def tUncleN3 : MxmlNode :=
  { type := MxmlType.element, name := some "x", parent := some 1 }

/-- The uncle-escape example tree. -/
def tUncle : MxmlTree := ⟨[tUncleN0, tUncleN1, tUncleN2, tUncleN3]⟩

/-- A rank function witnessing `tUncle`'s well-formedness. -/
def dUncle : Nat → Nat := fun i => if i = 0 then 0 else if i = 3 then 2 else 1

/-- Example: a root element holding the text node `"hello world"`. -/
def tTextN0 : MxmlNode :=
  { type := MxmlType.element, name := some "r", child := some 1, last_child := some 1 }

/-- The `"hello world"` text node. -/
def tTextN1 : MxmlNode :=
  { type := MxmlType.text, text := some "hello world", parent := some 0 }

/-- The text-search example tree. -/
def tText : MxmlTree := ⟨[tTextN0, tTextN1]⟩

/-- Example: `<r><a><*/></a></r>` — an element literally named `*` under
`<a>`. -/
def tStarN0 : MxmlNode :=
  { type := MxmlType.element, name := some "r", child := some 1, last_child := some 1 }

/-- The `<a>` element of `tStar`. -/
def tStarN1 : MxmlNode :=
  { type := MxmlType.element, name := some "a", parent := some 0,
    child := some 2, last_child := some 2 }

/-- The element literally named `*`. -/
def tStarN2 : MxmlNode :=
  { type := MxmlType.element, name := some "*", parent := some 1 }

/-- The literal-star example tree. -/
def tStar : MxmlTree := ⟨[tStarN0, tStarN1, tStarN2]⟩

lemma specAscend_eq (t : MxmlTree) (top : Option Nat) :
    ∀ (f : Nat) (i : Nat) (n : MxmlNode), t.get i = some n →
      specAscend t f i top =
        (match n.parent with
         | none => none
         | some p => if some p = top then none else walkAscend t f p top) := by
  intro f
  induction f with
  | zero =>
    intro i n h
    cases hp : n.parent <;> simp [specAscend, walkAscend, hp]
  | succ f ih =>
    intro i n h
    simp only [specAscend, h]
    cases hp : n.parent with
    | none => simp
    | some p =>
      simp only
      by_cases htop : some p = top
      · simp [htop]
      · simp only [if_neg htop]
        cases hq : t.get p with
        | none => simp [walkAscend, hq]
        | some q =>
          simp only
          cases hn : q.next with
          | some m => simp [walkAscend, hq, hn]
          | none =>
            simp only
            rw [ih p q hq]
            simp [walkAscend, hq, hn]

/-- C1: `mxmlWalkNext` computes exactly the `WalkNext` algorithm the spec
describes — none for an absent node; else the first child when one exists and
`descend` requests descent; else none when `node` equals `top`; else the next
sibling when one exists; else the ascent through `parent` links that stops
with none at `top` or at an absent parent and otherwise yields the next
sibling of the first ancestor having one (`specAscend`). -/
theorem mxmlWalkNext_eq_spec (t : MxmlTree) (node top : Option Nat) (descend : Int) :
    mxmlWalkNext t node top descend = walkNextFromSpec t node top descend := by
  cases node with
  | none => rfl
  | some i =>
    simp only [mxmlWalkNext, walkNextFromSpec]
    cases h : t.get i with
    | none => rfl
    | some n =>
      simp only
      by_cases hc : n.child.isSome ∧ descend ≠ 0
      · simp [hc]
      · simp only [if_neg hc]
        by_cases ht : some i = top
        · simp [ht]
        · simp only [if_neg ht]
          by_cases hn : n.next.isSome
          · simp [hn]
          · simp only [if_neg hn]
            rw [specAscend_eq t top t.nodes.length i n h]

/-- C3 counterexample: at `node = top` with a child present and a descending
policy, `mxmlWalkNext` returns the first child rather than none — the child
test (mxml-search.c:199) precedes the boundary test (mxml-search.c:201). -/
theorem walkNext_at_top_cex : mxmlWalkNext tPair (some 0) (some 0) 1 = some 1 := by
  rfl

/-- C3 (amended): when `node` equals `top`, `WalkPrev` always returns none;
`WalkNext` returns none whenever `top` has no first child or `descend` does
not request descent, but returns the first child when one exists and
`descend` requests descent. -/
theorem walk_at_top (t : MxmlTree) (d : Int) :
    (∀ o : Option Nat, mxmlWalkPrev t o o d = none) ∧
    (mxmlWalkNext t none none d = none) ∧
    (∀ i n, t.get i = some n → (n.child = none ∨ d = 0) →
      mxmlWalkNext t (some i) (some i) d = none) ∧
    (∀ i n c, t.get i = some n → n.child = some c → d ≠ 0 →
      mxmlWalkNext t (some i) (some i) d = some c) := by
  refine ⟨?_, rfl, ?_, ?_⟩
  · intro o
    cases o with
    | none => rfl
    | some i => simp [mxmlWalkPrev]
  · intro i n h hcd
    have hc : ¬(n.child.isSome ∧ d ≠ 0) := by
      rcases hcd with h1 | h1 <;> simp [h1]
    simp [mxmlWalkNext, h, hc]
  · intro i n c h hc hd
    have : n.child.isSome ∧ d ≠ 0 := by simp [hc, hd]
    simp [mxmlWalkNext, h, this, hc]

/-- C3 witness: the amended statement at a concrete tree — `WalkPrev` at the
boundary is none, and `WalkNext` at a childless boundary node is none. -/
theorem walk_at_top_wit :
    mxmlWalkPrev tPair (some 0) (some 0) 1 = none ∧
    mxmlWalkNext tPair (some 1) (some 1) 1 = none :=
  ⟨(walk_at_top tPair 1).1 (some 0),
   (walk_at_top tPair 1).2.2.1 1 tPairN1 rfl (Or.inl rfl)⟩

/-- C5: `mxmlFindElement` returns none whenever `node` is absent, or `top` is
absent, or `value` is supplied while `attr` is absent, regardless of tree
content. -/
theorem findElement_invalid_args (t : MxmlTree) (fuel : Nat)
    (node top : Option Nat) (name attr value : Option String) (descend : Int)
    (h : node = none ∨ top = none ∨ (attr = none ∧ value ≠ none)) :
    mxmlFindElement t fuel node top name attr value descend = none := by
  simp only [mxmlFindElement, if_pos h]

/-- C5 witness: the invalid value-without-attr constraint is rejected on a
concrete tree that does contain elements. -/
theorem findElement_invalid_args_wit :
    mxmlFindElement tAttr 10 (some 0) (some 0) none none (some "x") 1 = none :=
  findElement_invalid_args tAttr 10 (some 0) (some 0) none none (some "x") 1
    (Or.inr (Or.inr ⟨rfl, by decide⟩))

lemma optAll_some {o : Option Nat} {f : Nat → Bool} {x : Nat}
    (h : optAll o f = true) (hx : o = some x) : f x = true := by
  subst hx
  exact h

lemma wf_nodeOk {t : MxmlTree} {d : Nat → Nat} (hw : wfB t d = true)
    {i : Nat} {n : MxmlNode} (h : t.get i = some n) : nodeOk t d i n = true := by
  have hi : i < t.nodes.length := by
    by_contra hlt
    have hnone : t.nodes[i]? = none := by
      rw [List.getElem?_eq_none]
      omega
    rw [MxmlTree.get, hnone] at h
    exact Option.noConfusion h
  simp only [wfB] at hw
  have hall := List.all_eq_true.mp hw i (List.mem_range.mpr hi)
  simpa [h] using hall

lemma wf_depth_lt {t : MxmlTree} {d : Nat → Nat} (hw : wfB t d = true)
    {i : Nat} {n : MxmlNode} (h : t.get i = some n) : d i < t.nodes.length := by
  have hok := wf_nodeOk hw h
  simp only [nodeOk, Bool.and_eq_true, decide_eq_true_eq] at hok
  exact hok.1.1.1.1.1.1

lemma wf_parent {t : MxmlTree} {d : Nat → Nat} (hw : wfB t d = true)
    {i p : Nat} {n : MxmlNode} (h : t.get i = some n) (hp : n.parent = some p) :
    ∃ q, t.get p = some q ∧ d p < d i := by
  have hok := wf_nodeOk hw h
  simp only [nodeOk, Bool.and_eq_true] at hok
  have h2 := optAll_some hok.1.1.1.1.1.2 hp
  cases hq : t.get p with
  | none => simp only [hq] at h2; exact Bool.noConfusion h2
  | some q =>
    simp only [hq, decide_eq_true_eq] at h2
    exact ⟨q, rfl, h2⟩

lemma wf_child {t : MxmlTree} {d : Nat → Nat} (hw : wfB t d = true)
    {i c : Nat} {n : MxmlNode} (h : t.get i = some n) (hc : n.child = some c) :
    ∃ m, t.get c = some m ∧ m.parent = some i ∧ m.prev = none := by
  have hok := wf_nodeOk hw h
  simp only [nodeOk, Bool.and_eq_true] at hok
  have h3 := optAll_some hok.1.1.1.1.2 hc
  cases hm : t.get c with
  | none => simp only [hm] at h3; exact Bool.noConfusion h3
  | some m =>
    simp only [hm, decide_eq_true_eq] at h3
    exact ⟨m, rfl, h3⟩

lemma wf_next {t : MxmlTree} {d : Nat → Nat} (hw : wfB t d = true)
    {i j : Nat} {n : MxmlNode} (h : t.get i = some n) (hj : n.next = some j) :
    ∃ m, t.get j = some m ∧ m.prev = some i ∧ m.parent = n.parent ∧ d j = d i := by
  have hok := wf_nodeOk hw h
  simp only [nodeOk, Bool.and_eq_true] at hok
  have h4 := optAll_some hok.1.1.1.2 hj
  cases hm : t.get j with
  | none => simp only [hm] at h4; exact Bool.noConfusion h4
  | some m =>
    simp only [hm, decide_eq_true_eq] at h4
    exact ⟨m, rfl, h4⟩

lemma wf_last {t : MxmlTree} {d : Nat → Nat} (hw : wfB t d = true)
    {i l : Nat} {n : MxmlNode} (h : t.get i = some n) (hl : n.last_child = some l) :
    ∃ m, t.get l = some m ∧ m.next = none ∧ m.parent = some i := by
  have hok := wf_nodeOk hw h
  simp only [nodeOk, Bool.and_eq_true] at hok
  have h5 := optAll_some hok.1.1.2 hl
  cases hm : t.get l with
  | none => simp only [hm] at h5; exact Bool.noConfusion h5
  | some m =>
    simp only [hm, decide_eq_true_eq] at h5
    exact ⟨m, rfl, h5⟩

lemma wf_child_iff {t : MxmlTree} {d : Nat → Nat} (hw : wfB t d = true)
    {i : Nat} {n : MxmlNode} (h : t.get i = some n) :
    n.child = none ↔ n.last_child = none := by
  have hok := wf_nodeOk hw h
  simp only [nodeOk, Bool.and_eq_true, decide_eq_true_eq] at hok
  exact hok.1.2

lemma wf_nonext {t : MxmlTree} {d : Nat → Nat} (hw : wfB t d = true)
    {i p : Nat} {n q : MxmlNode} (h : t.get i = some n) (hn : n.next = none)
    (hp : n.parent = some p) (hq : t.get p = some q) : q.last_child = some i := by
  have hok := wf_nodeOk hw h
  simp only [nodeOk, Bool.and_eq_true] at hok
  have h7 := hok.2
  simp only [hn, hp, hq, decide_eq_true_eq] at h7
  exact h7

lemma isUnder_mono {t : MxmlTree} {top : Nat} :
    ∀ {f g i : Nat}, f ≤ g → isUnder t f i top = true → isUnder t g i top = true := by
  intro f
  induction f with
  | zero => intro g i _ hu; exact Bool.noConfusion hu
  | succ f ih =>
    intro g i hfg hu
    obtain ⟨g', rfl⟩ : ∃ g', g = g' + 1 := ⟨g - 1, by omega⟩
    cases h : t.get i with
    | none => simp only [isUnder, h] at hu; exact Bool.noConfusion hu
    | some n =>
      cases hp : n.parent with
      | none => simp only [isUnder, h, hp] at hu; exact Bool.noConfusion hu
      | some p =>
        simp only [isUnder, h, hp, Bool.or_eq_true, decide_eq_true_eq] at hu ⊢
        rcases hu with h1 | h1
        · exact Or.inl h1
        · exact Or.inr (ih (by omega) h1)

lemma isUnder_depth {t : MxmlTree} {d : Nat → Nat} (hw : wfB t d = true) {top : Nat} :
    ∀ {f i : Nat}, isUnder t f i top = true → ∃ n, t.get i = some n ∧ d top < d i := by
  intro f
  induction f with
  | zero => intro i hu; exact Bool.noConfusion hu
  | succ f ih =>
    intro i hu
    cases h : t.get i with
    | none => simp only [isUnder, h] at hu; exact Bool.noConfusion hu
    | some n =>
      cases hp : n.parent with
      | none => simp only [isUnder, h, hp] at hu; exact Bool.noConfusion hu
      | some p =>
        simp only [isUnder, h, hp, Bool.or_eq_true, decide_eq_true_eq] at hu
        obtain ⟨q, hq, hdp⟩ := wf_parent hw h hp
        rcases hu with h1 | h1
        · subst h1; exact ⟨n, rfl, hdp⟩
        · obtain ⟨m, _, hdt⟩ := ih h1
          exact ⟨n, rfl, lt_trans hdt hdp⟩

lemma lastDescend_of_chain {t : MxmlTree} {d : Nat → Nat} (hw : wfB t d = true) :
    ∀ {c k : Nat}, IsLastChain t c k → ∀ f, t.nodes.length - d c ≤ f →
      lastDescend t f c = some k := by
  intro c k hchain
  induction hchain with
  | base i n h hl =>
    intro f hf
    have hd := wf_depth_lt hw h
    obtain ⟨f', rfl⟩ : ∃ f', f = f' + 1 := ⟨f - 1, by omega⟩
    simp [lastDescend, h, hl]
  | step i n j k h hl hchain ih =>
    intro f hf
    have hd := wf_depth_lt hw h
    obtain ⟨m, hm, hmn, hmp⟩ := wf_last hw h hl
    obtain ⟨q, hq, hdj⟩ := wf_parent hw hm hmp
    have hdjl := wf_depth_lt hw hm
    obtain ⟨f', rfl⟩ : ∃ f', f = f' + 1 := ⟨f - 1, by omega⟩
    simp only [lastDescend, h, hl]
    exact ih f' (by omega)

lemma IsLastChain_cases {t : MxmlTree} {c k : Nat} (h : IsLastChain t c k) :
    (c = k ∧ ∃ n, t.get c = some n ∧ n.last_child = none) ∨
    (∃ n j, t.get c = some n ∧ n.last_child = some j ∧ IsLastChain t j k) := by
  cases h with
  | base i n hg hl => exact Or.inl ⟨rfl, n, hg, hl⟩
  | step i n j k' hg hl hch => exact Or.inr ⟨n, j, hg, hl, hch⟩

lemma walkAscend_roundtrip {t : MxmlTree} {d : Nat → Nat} (hw : wfB t d = true)
    {top k : Nat} :
    ∀ (f c : Nat) (nc : MxmlNode) (m : Nat), t.get c = some nc →
      isUnder t t.nodes.length c top = true →
      IsLastChain t c k →
      walkAscend t f c (some top) = some m →
      mxmlWalkPrev t (some m) (some top) 1 = some k := by
  intro f
  induction f with
  | zero => intro c nc m _ _ _ hwa; exact Option.noConfusion hwa
  | succ f ih =>
    intro c nc m hc hu hchain hwa
    simp only [walkAscend, hc] at hwa
    obtain ⟨_, hcc, hdtop⟩ := isUnder_depth hw hu
    cases hnext : nc.next with
    | some j =>
      simp only [hnext] at hwa
      obtain rfl : j = m := Option.some.inj hwa
      obtain ⟨mj, hgj, hprev, hpar, hdj⟩ := wf_next hw hc hnext
      have hjt : (some j : Option Nat) ≠ some top := by
        intro he
        injection he with he'
        subst he'
        rw [hdj] at hdtop
        exact lt_irrefl _ hdtop
      rcases IsLastChain_cases hchain with ⟨rfl, nnb, hgi, hli⟩ | ⟨nnb, j', hgi, hli, hch⟩
      · have hnb : nnb = nc := by
          rw [hgi] at hc
          exact Option.some.inj hc
        subst hnb
        simp [mxmlWalkPrev, hjt, hgj, hprev, hc, hli]
      · have hnb : nnb = nc := by
          rw [hgi] at hc
          exact Option.some.inj hc
        subst hnb
        have hld : lastDescend t t.nodes.length j' = some k :=
          lastDescend_of_chain hw hch t.nodes.length (Nat.sub_le _ _)
        simp [mxmlWalkPrev, hjt, hgj, hprev, hc, hli, hld,
          show (1 : Int) ≠ 0 by decide]
    | none =>
      simp only [hnext] at hwa
      cases hpp : nc.parent with
      | none =>
        simp only [hpp] at hwa
        exact Option.noConfusion hwa
      | some a =>
        simp only [hpp] at hwa
        by_cases hat : (some a : Option Nat) = some top
        · rw [if_pos hat] at hwa
          exact Option.noConfusion hwa
        · rw [if_neg hat] at hwa
          obtain ⟨qa, hqa, _⟩ := wf_parent hw hc hpp
          have hchain' : IsLastChain t a k :=
            IsLastChain.step a qa c k hqa (wf_nonext hw hc hnext hpp hqa) hchain
          have hcl : c < t.nodes.length := by
            by_contra hx
            have hnone : t.nodes[c]? = none := by rw [List.getElem?_eq_none]; omega
            rw [MxmlTree.get, hnone] at hc
            exact Option.noConfusion hc
          obtain ⟨L', hL⟩ : ∃ L', t.nodes.length = L' + 1 :=
            ⟨t.nodes.length - 1, by omega⟩
          have hu' := hu
          rw [hL] at hu'
          simp only [isUnder, hc, hpp, Bool.or_eq_true, decide_eq_true_eq] at hu'
          have hua : isUnder t t.nodes.length a top = true := by
            rcases hu' with h1 | h1
            · exact absurd (congrArg some h1) hat
            · exact isUnder_mono (by omega) h1
          exact ih a qa m hqa hua hchain' hwa

/-- C2 (amended): on a tree satisfying the data-model invariants, for every
boundary node `top` and every node `n` reachable strictly under `top` whose
bounded walk successor exists,
`WalkPrev(WalkNext(n, top, descend-always), top, descend-always) = n`. -/
theorem walkPrev_walkNext (t : MxmlTree) (hwf : WF t) (top n : Nat)
    (hu : isUnder t t.nodes.length n top = true)
    (hs : mxmlWalkNext t (some n) (some top) 1 ≠ none) :
    mxmlWalkPrev t (mxmlWalkNext t (some n) (some top) 1) (some top) 1 = some n := by
  obtain ⟨d, hw⟩ := hwf
  obtain ⟨nn, hn, hdtop⟩ := isUnder_depth hw hu
  have hnt : (some n : Option Nat) ≠ some top := by
    intro he
    injection he with he'
    subst he'
    exact lt_irrefl _ hdtop
  cases hc : nn.child with
  | some c0 =>
    have hres : mxmlWalkNext t (some n) (some top) 1 = some c0 := by
      simp [mxmlWalkNext, hn, hc]
    rw [hres]
    obtain ⟨m0, hm0, hpar0, hprev0⟩ := wf_child hw hn hc
    obtain ⟨q, hq, hdc⟩ := wf_parent hw hm0 hpar0
    have hc0t : (some c0 : Option Nat) ≠ some top := by
      intro he
      injection he with he'
      subst he'
      exact lt_irrefl _ (lt_trans hdtop hdc)
    simp [mxmlWalkPrev, hc0t, hm0, hprev0, hpar0, hnt]
  | none =>
    cases hnx : nn.next with
    | some s =>
      have hres : mxmlWalkNext t (some n) (some top) 1 = some s := by
        simp [mxmlWalkNext, hn, hc, hnt, hnx]
      rw [hres]
      obtain ⟨ms, hms, hprevs, hpars, hds⟩ := wf_next hw hn hnx
      have hst : (some s : Option Nat) ≠ some top := by
        intro he
        injection he with he'
        subst he'
        rw [hds] at hdtop
        exact lt_irrefl _ hdtop
      have hlast : nn.last_child = none := (wf_child_iff hw hn).mp hc
      simp [mxmlWalkPrev, hst, hms, hprevs, hn, hlast]
    | none =>
      cases hpp : nn.parent with
      | none =>
        exfalso
        apply hs
        simp [mxmlWalkNext, hn, hc, hnt, hnx, hpp]
      | some p1 =>
        by_cases hpt : (some p1 : Option Nat) = some top
        · exfalso
          apply hs
          simp [mxmlWalkNext, hn, hc, hnt, hnx, hpp, hpt]
        · have hres : mxmlWalkNext t (some n) (some top) 1 =
              walkAscend t t.nodes.length p1 (some top) := by
            simp [mxmlWalkNext, hn, hc, hnt, hnx, hpp, hpt]
          rw [hres] at hs ⊢
          cases hm : walkAscend t t.nodes.length p1 (some top) with
          | none => exact absurd hm hs
          | some m =>
            obtain ⟨qp, hqp, _⟩ := wf_parent hw hn hpp
            have hchain : IsLastChain t p1 n :=
              IsLastChain.step p1 qp n n hqp (wf_nonext hw hn hnx hpp hqp)
                (IsLastChain.base n nn hn ((wf_child_iff hw hn).mp hc))
            have hnl : n < t.nodes.length := by
              by_contra hx
              have hnone : t.nodes[n]? = none := by rw [List.getElem?_eq_none]; omega
              rw [MxmlTree.get, hnone] at hn
              exact Option.noConfusion hn
            obtain ⟨L', hL⟩ : ∃ L', t.nodes.length = L' + 1 :=
              ⟨t.nodes.length - 1, by omega⟩
            have hu' := hu
            rw [hL] at hu'
            simp only [isUnder, hn, hpp, Bool.or_eq_true, decide_eq_true_eq] at hu'
            have hup1 : isUnder t t.nodes.length p1 top = true := by
              rcases hu' with h1 | h1
              · exact absurd (congrArg some h1) hpt
              · exact isUnder_mono (by omega) h1
            exact walkAscend_roundtrip hw t.nodes.length p1 qp m hqp hup1 hchain hm

/-- C2 counterexample: on the well-formed two-node tree, the single child of
`top` is reachable under `top` and distinct from it, yet its walk successor
is none, so the round trip yields none rather than the node itself. -/
theorem walk_roundtrip_cex :
    wfB tPair dPair = true ∧ isUnder tPair tPair.nodes.length 1 0 = true ∧
    mxmlWalkPrev tPair (mxmlWalkNext tPair (some 1) (some 0) 1) (some 0) 1 ≠ some 1 := by
  exact ⟨by decide, by decide, by decide⟩

/-- C2 witness: the round trip at the first of two children of the root. -/
theorem walkPrev_walkNext_wit :
    mxmlWalkPrev tTrio (mxmlWalkNext tTrio (some 1) (some 0) 1) (some 0) 1 = some 1 :=
  walkPrev_walkNext tTrio ⟨dTrio, by decide⟩ 0 1 (by decide) (by decide)

lemma nthCand_succ (t : MxmlTree) (top : Option Nat) (dd : Int) (s : Option Nat)
    (k : Nat) :
    nthCand t top dd s (k + 1) =
      match nthCand t top dd s k with
      | none => none
      | some i =>
        match t.get i with
        | none => none
        | some n =>
          if dd = MXML_DESCEND then mxmlWalkNext t (some i) top MXML_DESCEND
          else n.next := rfl

lemma nthCand_none {t : MxmlTree} {top : Option Nat} {dd : Int} :
    ∀ k, nthCand t top dd none k = none := by
  intro k
  induction k with
  | zero => rfl
  | succ k ih => simp [nthCand, ih]

lemma nthCand_dead {t : MxmlTree} {top : Option Nat} {dd : Int} {i : Nat}
    (hg : t.get i = none) : ∀ k, nthCand t top dd (some i) (k + 1) = none := by
  intro k
  induction k with
  | zero => simp [nthCand, hg]
  | succ k ih => rw [nthCand_succ, ih]

lemma nthCand_shift {t : MxmlTree} {top : Option Nat} {dd : Int} {i : Nat}
    {n : MxmlNode} (hg : t.get i = some n) :
    ∀ k, nthCand t top dd (some i) (k + 1) =
      nthCand t top dd
        (if dd = MXML_DESCEND then mxmlWalkNext t (some i) top MXML_DESCEND
         else n.next) k := by
  intro k
  induction k with
  | zero => simp [nthCand, hg]
  | succ k ih =>
    rw [nthCand_succ, ih]
    rfl

lemma searchLoop_some_iff {t : MxmlTree} {top : Option Nat} {p : MxmlNode → Bool}
    {dd : Int} :
    ∀ (f : Nat) (s : Option Nat) (r : Nat),
      searchLoop t top p dd f s = some r ↔
        ∃ k, k < f ∧ nthCand t top dd s k = some r ∧
          (∃ n, t.get r = some n ∧ p n = true) ∧
          ∀ j, j < k → ∃ ij nj, nthCand t top dd s j = some ij ∧
            t.get ij = some nj ∧ p nj = false := by
  intro f
  induction f with
  | zero =>
    intro s r
    constructor
    · intro h
      cases s <;> simp [searchLoop] at h
    · rintro ⟨k, hk, -⟩
      omega
  | succ f ih =>
    intro s r
    cases s with
    | none =>
      constructor
      · intro h
        simp [searchLoop] at h
      · rintro ⟨k, hk, hnth, -, -⟩
        rw [nthCand_none] at hnth
        exact Option.noConfusion hnth
    | some i =>
      cases hg : t.get i with
      | none =>
        constructor
        · intro h
          simp [searchLoop, hg] at h
        · rintro ⟨k, hk, hnth, ⟨nr, hr, hpr⟩, hprev⟩
          cases k with
          | zero =>
            obtain rfl : i = r := Option.some.inj hnth
            rw [hg] at hr
            exact Option.noConfusion hr
          | succ k =>
            rw [nthCand_dead hg] at hnth
            exact Option.noConfusion hnth
      | some n =>
        cases hpn : p n with
        | true =>
          constructor
          · intro h
            simp only [searchLoop, hg, hpn, if_true] at h
            obtain rfl : i = r := Option.some.inj h
            exact ⟨0, Nat.succ_pos f, rfl, ⟨n, hg, hpn⟩,
              fun j hj => absurd hj (Nat.not_lt_zero j)⟩
          · rintro ⟨k, hk, hnth, hmt, hprev⟩
            cases k with
            | zero =>
              obtain rfl : i = r := Option.some.inj hnth
              simp [searchLoop, hg, hpn]
            | succ k =>
              obtain ⟨i0, n0, h0, hg0, hp0⟩ := hprev 0 (Nat.succ_pos k)
              obtain rfl : i = i0 := Option.some.inj h0
              rw [hg] at hg0
              obtain rfl : n = n0 := Option.some.inj hg0
              rw [hpn] at hp0
              exact Bool.noConfusion hp0
        | false =>
          have hstep : searchLoop t top p dd (f+1) (some i) =
              searchLoop t top p dd f
                (if dd = MXML_DESCEND then mxmlWalkNext t (some i) top MXML_DESCEND
                 else n.next) := by
            simp [searchLoop, hg, hpn]
          rw [hstep, ih]
          constructor
          · rintro ⟨k, hk, hnth, hmt, hprev⟩
            refine ⟨k + 1, by omega, ?_, hmt, ?_⟩
            · rw [nthCand_shift hg]
              exact hnth
            · intro j hj
              cases j with
              | zero => exact ⟨i, n, rfl, hg, hpn⟩
              | succ j =>
                obtain ⟨ij, nj, h1, h2, h3⟩ := hprev j (by omega)
                refine ⟨ij, nj, ?_, h2, h3⟩
                rw [nthCand_shift hg]
                exact h1
          · rintro ⟨k, hk, hnth, hmt, hprev⟩
            cases k with
            | zero =>
              obtain rfl : i = r := Option.some.inj hnth
              obtain ⟨nr, hr, hpr⟩ := hmt
              rw [hg] at hr
              obtain rfl : n = nr := Option.some.inj hr
              rw [hpn] at hpr
              exact Bool.noConfusion hpr
            | succ k =>
              refine ⟨k, by omega, ?_, hmt, ?_⟩
              · rw [nthCand_shift hg] at hnth
                exact hnth
              · intro j hj
                obtain ⟨ij, nj, h1, h2, h3⟩ := hprev (j+1) (by omega)
                rw [nthCand_shift hg] at h1
                exact ⟨ij, nj, h1, h2, h3⟩

lemma beq_eq_decide_str (a b : String) : (a == b) = decide (a = b) := by
  by_cases h : a = b <;> simp [beq_iff_eq, h]

lemma claimElemMatch_invalid {n : MxmlNode} {name : Option String} {v : String} :
    claimElemMatch n name none (some v) = false := by
  simp [claimElemMatch]

lemma elemMatch_eq_claim {n : MxmlNode} {name attr value : Option String}
    (hnm : n.type = MxmlType.element → n.name ≠ none)
    (hg : ¬(attr = none ∧ value ≠ none)) :
    elemMatch n name attr value = claimElemMatch n name attr value := by
  cases ht : n.type with
  | element =>
    cases hname : n.name with
    | none => exact absurd hname (hnm ht)
    | some en =>
      rcases attr with _ | a
      · rcases value with _ | v
        · cases name <;>
            simp [elemMatch, claimElemMatch, ht, hname, beq_eq_decide_str, eq_comm]
        · exact absurd ⟨rfl, by simp⟩ hg
      · rcases hl : mxmlElementGetAttrValue n a with _ | temp <;>
          rcases value with _ | v <;>
          cases name <;>
          simp [elemMatch, claimElemMatch, ht, hname, hl, beq_eq_decide_str, eq_comm]
  | text =>
    cases n.name <;> simp [elemMatch, claimElemMatch, ht]
  | otherKind =>
    cases n.name <;> simp [elemMatch, claimElemMatch, ht]

lemma elemNamed_get {t : MxmlTree} (hne : elemNamedB t = true) {i : Nat}
    {n : MxmlNode} (h : t.get i = some n) :
    n.type = MxmlType.element → n.name ≠ none := by
  intro ht
  have hmem : n ∈ t.nodes := List.getElem?_mem h
  simp only [elemNamedB] at hne
  have := List.all_eq_true.mp hne n hmem
  rw [ht] at this
  simp only [Option.isSome_iff_ne_none] at this
  exact this

/-- C4: for present `node` and `top`, `mxmlFindElement` returns `r` exactly
when `r` is the first node strictly after `node` in the loop's bounded walk
order (stream `nthCand`, starting at the walk successor of `node`) that
satisfies the claim's constraint (`claimElemMatch`: kind Element, name equal
to `name` or any name when `name` is absent, attribute `attr` present when
given, its value equal to `value` exactly when `value` is also given), within
the loop fuel; equivalently it returns none when no such node exists before
the walk is exhausted.  The tree is assumed to give every element a name
(spec §3). -/
theorem mxmlFindElement_first (t : MxmlTree) (fuel : Nat) (ni ti : Nat)
    (name attr value : Option String) (dd : Int)
    (hnames : elemNamedB t = true) (r : Nat) :
    mxmlFindElement t fuel (some ni) (some ti) name attr value dd = some r ↔
      ∃ k, k < fuel ∧
        nthCand t (some ti) dd (mxmlWalkNext t (some ni) (some ti) dd) k = some r ∧
        (∃ n, t.get r = some n ∧ claimElemMatch n name attr value = true) ∧
        ∀ j, j < k → ∃ ij nj,
          nthCand t (some ti) dd (mxmlWalkNext t (some ni) (some ti) dd) j = some ij ∧
          t.get ij = some nj ∧ claimElemMatch nj name attr value = false := by
  by_cases hg : attr = none ∧ value ≠ none
  · constructor
    · intro h
      rw [mxmlFindElement, if_pos (Or.inr (Or.inr hg))] at h
      exact Option.noConfusion h
    · rintro ⟨k, hk, hnth, ⟨n, hr, hp⟩, hprev⟩
      obtain ⟨ha, hv⟩ := hg
      subst ha
      rcases hvv : value with _ | v
      · exact absurd hvv hv
      · rw [hvv, claimElemMatch_invalid] at hp
        exact Bool.noConfusion hp
  · have hguard : ¬((some ni : Option Nat) = none ∨ (some ti : Option Nat) = none ∨
        (attr = none ∧ value ≠ none)) := by
      push_neg
      refine ⟨Option.noConfusion, Option.noConfusion, ?_⟩
      intro ha
      by_contra hv
      exact hg ⟨ha, hv⟩
    rw [mxmlFindElement, if_neg hguard, searchLoop_some_iff]
    have hpt : ∀ m : MxmlNode, (∃ im, t.get im = some m) →
        elemMatch m name attr value = claimElemMatch m name attr value := by
      rintro m ⟨im, him⟩
      exact elemMatch_eq_claim (elemNamed_get hnames him) hg
    constructor
    · rintro ⟨k, hk, hnth, ⟨n, hr, hp⟩, hprev⟩
      refine ⟨k, hk, hnth, ⟨n, hr, by rw [← hpt n ⟨r, hr⟩]; exact hp⟩, ?_⟩
      intro j hj
      obtain ⟨ij, nj, h1, h2, h3⟩ := hprev j hj
      exact ⟨ij, nj, h1, h2, by rw [← hpt nj ⟨ij, h2⟩]; exact h3⟩
    · rintro ⟨k, hk, hnth, ⟨n, hr, hp⟩, hprev⟩
      refine ⟨k, hk, hnth, ⟨n, hr, by rw [hpt n ⟨r, hr⟩]; exact hp⟩, ?_⟩
      intro j hj
      obtain ⟨ij, nj, h1, h2, h3⟩ := hprev j hj
      exact ⟨ij, nj, h1, h2, by rw [hpt nj ⟨ij, h2⟩]; exact h3⟩

/-- C4 witness: the spec's attribute-value example — searching from the
parent for `a` with `id="2"` skips `<a id="1"/>` and returns `<a id="2"/>`. -/
theorem mxmlFindElement_first_wit :
    mxmlFindElement tAttr 10 (some 0) (some 0) (some "a") (some "id") (some "2") 1
      = some 2 :=
  (mxmlFindElement_first tAttr 10 0 0 (some "a") (some "id") (some "2") 1
      (by decide) 2).mpr
    ⟨1, by omega, by decide, ⟨tAttrN2, by decide, by decide⟩,
      fun j hj =>
        match j, hj with
        | 0, _ => ⟨1, tAttrN1, by decide, by decide, by decide⟩
        | j+1, hj => absurd hj (by omega)⟩

lemma textMatch_some {n : MxmlNode} {s : String} :
    textMatch n (some s) = true ↔ (n.type = MxmlType.text ∧ n.text = some s) := by
  cases ht : n.type <;> cases htx : n.text <;>
    simp [textMatch, ht, htx, eq_comm]

/-- C7: `mxmlFindElementText` returns none immediately when `node`, `top` or
`text` is absent; otherwise it returns `r` exactly when `r` is the first node
strictly after `node` in the loop's bounded walk order whose kind is Text and
whose payload equals `text` as a whole string — so a payload merely containing
`text` as a substring is never returned. -/
theorem mxmlFindElementText_first (t : MxmlTree) (fuel : Nat)
    (node top : Option Nat) (text : Option String) (dd : Int) :
    ((node = none ∨ top = none ∨ text = none) →
      mxmlFindElementText t fuel node top text dd = none) ∧
    (∀ ni ti s r, node = some ni → top = some ti → text = some s →
      (mxmlFindElementText t fuel node top text dd = some r ↔
        ∃ k, k < fuel ∧
          nthCand t (some ti) dd (mxmlWalkNext t (some ni) (some ti) dd) k = some r ∧
          (∃ n, t.get r = some n ∧ n.type = MxmlType.text ∧ n.text = some s) ∧
          ∀ j, j < k → ∃ ij nj,
            nthCand t (some ti) dd (mxmlWalkNext t (some ni) (some ti) dd) j = some ij ∧
            t.get ij = some nj ∧ ¬(nj.type = MxmlType.text ∧ nj.text = some s))) := by
  constructor
  · intro h
    simp only [mxmlFindElementText, if_pos h]
  · intro ni ti s r hni hti hs
    subst hni
    subst hti
    subst hs
    have hguard : ¬((some ni : Option Nat) = none ∨ (some ti : Option Nat) = none ∨
        (some s : Option String) = none) := by
      push_neg
      exact ⟨Option.noConfusion, Option.noConfusion, Option.noConfusion⟩
    rw [mxmlFindElementText, if_neg hguard, searchLoop_some_iff]
    constructor
    · rintro ⟨k, hk, hnth, ⟨n, hr, hp⟩, hprev⟩
      refine ⟨k, hk, hnth, ⟨n, hr, textMatch_some.mp hp⟩, ?_⟩
      intro j hj
      obtain ⟨ij, nj, h1, h2, h3⟩ := hprev j hj
      refine ⟨ij, nj, h1, h2, ?_⟩
      intro hc
      rw [textMatch_some.mpr hc] at h3
      exact Bool.noConfusion h3
    · rintro ⟨k, hk, hnth, ⟨n, hr, hp⟩, hprev⟩
      refine ⟨k, hk, hnth, ⟨n, hr, textMatch_some.mpr hp⟩, ?_⟩
      intro j hj
      obtain ⟨ij, nj, h1, h2, h3⟩ := hprev j hj
      refine ⟨ij, nj, h1, h2, ?_⟩
      cases hb : textMatch nj (some s) with
      | false => rfl
      | true => exact absurd (textMatch_some.mp hb) h3

/-- C7 witness: absent text gives none; the exact payload `"hello world"` is
found; the proper substring `"hello"` is not matched by the `"hello world"`
node. -/
theorem mxmlFindElementText_first_wit :
    mxmlFindElementText tText 10 (some 0) (some 0) none 1 = none ∧
    mxmlFindElementText tText 10 (some 0) (some 0) (some "hello world") 1 = some 1 ∧
    mxmlFindElementText tText 10 (some 0) (some 0) (some "hello") 1 ≠ some 1 := by
  refine ⟨?_, ?_, ?_⟩
  · exact (mxmlFindElementText_first tText 10 (some 0) (some 0) none 1).1
      (Or.inr (Or.inr rfl))
  · exact ((mxmlFindElementText_first tText 10 (some 0) (some 0)
        (some "hello world") 1).2 0 0 "hello world" 1 rfl rfl rfl).mpr
      ⟨0, by omega, by decide, ⟨tTextN1, by decide, by decide, by decide⟩,
        fun j hj => absurd hj (by omega)⟩
  · intro h
    obtain ⟨k, -, -, ⟨n, hn, -, htx⟩, -⟩ :=
      ((mxmlFindElementText_first tText 10 (some 0) (some 0)
          (some "hello") 1).2 0 0 "hello" 1 rfl rfl rfl).mp h
    have hn' : n = tTextN1 := by
      rw [show tText.get 1 = some tTextN1 from rfl] at hn
      exact (Option.some.inj hn).symm
    subst hn'
    exact absurd htx (by decide)

lemma searchLoop_sibling_parent {t : MxmlTree} {d : Nat → Nat}
    (hw : wfB t d = true) {top : Option Nat} {q : MxmlNode → Bool} {dd : Int}
    (hdd : ¬(dd = MXML_DESCEND)) {pp : Nat} :
    ∀ (f : Nat) (s : Option Nat),
      (∀ i, s = some i → ∃ n, t.get i = some n ∧ n.parent = some pp) →
      ∀ res, searchLoop t top q dd f s = some res →
        ∃ m, t.get res = some m ∧ m.parent = some pp := by
  intro f
  induction f with
  | zero =>
    intro s hinv res h
    cases s <;> simp [searchLoop] at h
  | succ f ih =>
    intro s hinv res h
    cases s with
    | none => simp [searchLoop] at h
    | some i =>
      obtain ⟨n, hg, hpar⟩ := hinv i rfl
      cases hq : q n with
      | true =>
        simp only [searchLoop, hg, hq, if_true] at h
        obtain rfl : i = res := Option.some.inj h
        exact ⟨n, hg, hpar⟩
      | false =>
        simp only [searchLoop, hg, hq, Bool.false_eq_true, if_false] at h
        rw [if_neg hdd] at h
        refine ih n.next ?_ res h
        intro j hj
        obtain ⟨mj, hgj, _, hpj, _⟩ := wf_next hw hg hj
        exact ⟨mj, hgj, by rw [hpj, hpar]⟩

/-- C6 (amended): inside `mxmlFindElement`'s loop, advancing from a
non-matching candidate uses the full bounded walk exactly when the caller
passed `MXML_DESCEND` and the plain `next` link otherwise; consequently, on a
well-formed tree, when the caller passes the starting node itself as `top`,
a `MXML_DESCEND_FIRST` first call from `p` and `MXML_NO_DESCEND` resumption
calls from a child of `p` only ever return direct children of `p`. -/
theorem findElement_descend_modes :
    (∀ (t : MxmlTree) (top : Option Nat) (name attr value : Option String)
        (dd : Int) (f i : Nat) (n : MxmlNode), t.get i = some n →
      elemMatch n name attr value = false →
      searchLoop t top (fun m => elemMatch m name attr value) dd (f + 1) (some i) =
        searchLoop t top (fun m => elemMatch m name attr value) dd f
          (if dd = MXML_DESCEND then mxmlWalkNext t (some i) top MXML_DESCEND
           else n.next)) ∧
    (∀ (t : MxmlTree), WF t → ∀ (f r : Nat) (nr : MxmlNode) (p : Nat)
        (name attr value : Option String) (res : Nat),
      t.get r = some nr → nr.parent = some p →
      mxmlFindElement t f (some r) (some p) name attr value MXML_NO_DESCEND = some res →
      ∃ m, t.get res = some m ∧ m.parent = some p) ∧
    (∀ (t : MxmlTree), WF t → ∀ (f p : Nat)
        (name attr value : Option String) (res : Nat),
      mxmlFindElement t f (some p) (some p) name attr value MXML_DESCEND_FIRST = some res →
      ∃ m, t.get res = some m ∧ m.parent = some p) := by
  refine ⟨?_, ?_, ?_⟩
  · intro t top name attr value dd f i n hg hm
    simp [searchLoop, hg, hm]
  · rintro t ⟨d, hw⟩ f r nr p name attr value res hgr hpar h
    rw [mxmlFindElement] at h
    by_cases hgd : (some r : Option Nat) = none ∨ (some p : Option Nat) = none ∨
        (attr = none ∧ value ≠ none)
    · rw [if_pos hgd] at h
      exact Option.noConfusion h
    · rw [if_neg hgd] at h
      refine searchLoop_sibling_parent hw (by decide) f _ ?_ res h
      intro i hi
      by_cases hrp : (some r : Option Nat) = some p
      · simp [mxmlWalkNext, hgr, hrp, MXML_NO_DESCEND] at hi
      · cases hnx : nr.next with
        | some s =>
          simp [mxmlWalkNext, hgr, hrp, hnx, MXML_NO_DESCEND] at hi
          obtain ⟨ms, hgs, _, hps, _⟩ := wf_next hw hgr hnx
          exact ⟨ms, by rw [← hi]; exact hgs, by rw [hps, hpar]⟩
        | none =>
          simp [mxmlWalkNext, hgr, hrp, hnx, hpar, MXML_NO_DESCEND] at hi
  · rintro t ⟨d, hw⟩ f p name attr value res h
    rw [mxmlFindElement] at h
    by_cases hgd : (some p : Option Nat) = none ∨ (some p : Option Nat) = none ∨
        (attr = none ∧ value ≠ none)
    · rw [if_pos hgd] at h
      exact Option.noConfusion h
    · rw [if_neg hgd] at h
      refine searchLoop_sibling_parent hw (by decide) f _ ?_ res h
      intro i hi
      cases hgp : t.get p with
      | none =>
        simp [mxmlWalkNext, hgp] at hi
      | some np =>
        cases hc : np.child with
        | some c =>
          simp [mxmlWalkNext, hgp, hc, MXML_DESCEND_FIRST] at hi
          obtain ⟨mc, hgc, hpc, _⟩ := wf_child hw hgp hc
          exact ⟨mc, by rw [← hi]; exact hgc, hpc⟩
        | none =>
          simp [mxmlWalkNext, hgp, hc, MXML_DESCEND_FIRST] at hi

/-- C6 counterexample: on a well-formed tree, resuming with no-descend from
the last child of `<p>` while `top` is the higher root returns the sibling
`<x/>` of `<p>` — a node that is not a direct child of the starting position
`<p>` (its parent is the root 0, not 1). -/
theorem findElement_no_descend_escape_cex :
    wfB tUncle dUncle = true ∧
    mxmlFindElement tUncle 10 (some 1) (some 0) (some "x") none none (-1) = some 3 ∧
    mxmlFindElement tUncle 10 (some 3) (some 0) (some "x") none none 0 = some 2 ∧
    tUncle.get 2 = some tUncleN2 ∧ tUncleN2.parent = some 0 ∧
    tUncleN2.parent ≠ some 1 := by
  exact ⟨by decide, by decide, by decide, by decide, by decide, by decide⟩

/-- C6 witness: the amended statement exercised at concrete inputs — the
loop's advance equation at a non-matching candidate, and the confinement of
both the no-descend resumption and the descend-first first call when `top`
is the starting node. -/
theorem findElement_descend_modes_wit :
    (searchLoop tAttr (some 0) (fun m => elemMatch m (some "zzz") none none) 1 3 (some 1) =
      searchLoop tAttr (some 0) (fun m => elemMatch m (some "zzz") none none) 1 2
        (if (1 : Int) = MXML_DESCEND then mxmlWalkNext tAttr (some 1) (some 0) MXML_DESCEND
         else tAttrN1.next)) ∧
    (∃ m, tAttr.get 2 = some m ∧ m.parent = some 0) ∧
    (∃ m, tAttr.get 1 = some m ∧ m.parent = some 0) :=
  ⟨findElement_descend_modes.1 tAttr (some 0) (some "zzz") none none 1 2 1 tAttrN1
      rfl (by decide),
   findElement_descend_modes.2.1 tAttr ⟨dAttr, by decide⟩ 10 1 tAttrN1 0
      (some "a") none none 2 rfl rfl (by decide),
   findElement_descend_modes.2.2 tAttr ⟨dAttr, by decide⟩ 10 0
      (some "a") none none 1 (by decide)⟩

lemma findPathLoop_eq_spec (t : MxmlTree) (ef : Nat) :
    ∀ (f : Nat) (node : Nat) (path : List Char),
      findPathLoop t ef f node path =
        (match specParse f path with
         | none => none
         | some segs =>
           match specHops t ef segs node with
           | none => none
           | some nd => finalValue t nd) := by
  intro f
  induction f with
  | zero => intro node path; rfl
  | succ f ih =>
    intro node path
    by_cases hemp : path.isEmpty
    · simp [findPathLoop, specParse, hemp, specHops]
    · simp only [findPathLoop, specParse, if_neg hemp]
      by_cases hbad : ((if markerQ path then path.drop 2 else path).takeWhile
          (fun c => c ≠ '/')).isEmpty ∨
          256 ≤ ((if markerQ path then path.drop 2 else path).takeWhile
            (fun c => c ≠ '/')).length
      · simp only [if_pos hbad]
      · simp only [if_neg hbad, ih]
        cases hfe : mxmlFindElement t ef (some node) (some node)
            (some (String.mk ((if markerQ path then path.drop 2 else path).takeWhile
              (fun c => c ≠ '/')))) none none
            (if markerQ path then MXML_DESCEND else MXML_DESCEND_FIRST) with
        | none =>
          cases hsp : specParse f
              (match (if markerQ path then path.drop 2 else path).dropWhile
                (fun c => c ≠ '/') with
               | [] => ([] : List Char)
               | _ :: r => r) with
          | none => simp only [hfe, hsp]
          | some segs => simp only [hfe, hsp, specHops]
        | some nd =>
          cases hsp : specParse f
              (match (if markerQ path then path.drop 2 else path).dropWhile
                (fun c => c ≠ '/') with
               | [] => ([] : List Char)
               | _ :: r => r) with
          | none => simp only [hfe, hsp]
          | some segs => simp only [hfe, hsp, specHops]

/-- C8: `mxmlFindPath` equals the spec's description of `FindPath` —
parse the whole path into (mode, segment) pairs, a `*/`-prefixed segment
searched with descend-always and every other one with descend-first, then
hop with `FindElement(current, current, segment, no-attr, no-value, mode)`
(each hop confined to the current node's subtree), failing as soon as a hop
or the parse fails, with the final first-child adjustment at the end. -/
theorem mxmlFindPath_eq_spec (t : MxmlTree) (ef : Nat) (top : Option Nat)
    (path : Option (List Char)) :
    mxmlFindPath t ef top path = specFindPath t ef top path := by
  cases top with
  | none => cases path <;> rfl
  | some ti =>
    cases path with
    | none => rfl
    | some p =>
      simp only [mxmlFindPath, specFindPath]
      by_cases hemp : p.isEmpty
      · simp [hemp]
      · simp only [if_neg hemp]
        exact findPathLoop_eq_spec t ef (p.length + 1) ti p

/-- C9: `mxmlFindPath` returns none for an absent or empty path; the segment
loop returns none whenever a slash sits immediately at the current position
(after an optional `*/` marker) — an empty segment — or the segment at the
current position is 256 bytes or longer; and once every segment has resolved
(the remaining path is empty) the loop returns the resolved node's first
child when that child exists and is not an element, and the resolved node
itself otherwise. -/
theorem findPath_guards (t : MxmlTree) (ef : Nat) :
    (∀ ti : Option Nat, mxmlFindPath t ef ti none = none) ∧
    (∀ ti : Option Nat, mxmlFindPath t ef ti (some []) = none) ∧
    (∀ (f node : Nat) (path : List Char),
      (if markerQ path then path.drop 2 else path).head? = some '/' →
      findPathLoop t ef (f + 1) node path = none) ∧
    (∀ (f node : Nat) (path : List Char),
      256 ≤ ((if markerQ path then path.drop 2 else path).takeWhile
        (fun c => c ≠ '/')).length →
      findPathLoop t ef (f + 1) node path = none) ∧
    (∀ (f node : Nat) (n : MxmlNode), t.get node = some n →
      (n.child = none → findPathLoop t ef (f + 1) node [] = some node) ∧
      (∀ c m, n.child = some c → t.get c = some m →
        (m.type ≠ MxmlType.element → findPathLoop t ef (f + 1) node [] = some c) ∧
        (m.type = MxmlType.element → findPathLoop t ef (f + 1) node [] = some node))) := by
  refine ⟨?_, ?_, ?_, ?_, ?_⟩
  · intro ti
    cases ti <;> rfl
  · intro ti
    cases ti <;> rfl
  · intro f node path h
    by_cases hemp : path.isEmpty
    · exfalso
      rw [List.isEmpty_iff.mp hemp] at h
      exact absurd h (by decide)
    · simp only [findPathLoop, if_neg hemp]
      cases hrest : (if markerQ path then path.drop 2 else path) with
      | nil =>
        rw [hrest] at h
        exact absurd h (by decide)
      | cons c rs =>
        rw [hrest] at h
        have hc : c = '/' := by simpa using h
        subst hc
        simp [List.takeWhile_cons]
  · intro f node path h
    by_cases hemp : path.isEmpty
    · exfalso
      rw [List.isEmpty_iff.mp hemp] at h
      exact absurd h (by decide)
    · simp only [findPathLoop, if_neg hemp]
      rw [if_pos (Or.inr h)]
  · intro f node n hg
    refine ⟨?_, ?_⟩
    · intro hch
      simp [findPathLoop, finalValue, hg, hch]
    · intro c m hc hm
      refine ⟨fun hne => ?_, fun heq => ?_⟩
      · simp [findPathLoop, finalValue, hg, hc, hm, hne]
      · simp [findPathLoop, finalValue, hg, hc, hm, heq]

/-- C9 witness: each guard exercised concretely — absent path, empty path, a
leading slash, a 256-byte segment, and the final first-child adjustment to a
text child. -/
theorem findPath_guards_wit :
    mxmlFindPath tAttr 5 (some 0) none = none ∧
    mxmlFindPath tAttr 5 (some 0) (some []) = none ∧
    findPathLoop tAttr 5 3 0 ['/', 'a'] = none ∧
    findPathLoop tAttr 5 1 0 (List.replicate 256 'a') = none ∧
    findPathLoop tText 5 1 0 [] = some 1 :=
  ⟨(findPath_guards tAttr 5).1 (some 0),
   (findPath_guards tAttr 5).2.1 (some 0),
   (findPath_guards tAttr 5).2.2.1 2 0 ['/', 'a'] (by decide),
   (findPath_guards tAttr 5).2.2.2.1 0 0 (List.replicate 256 'a') (by decide),
   (((findPath_guards tText 5).2.2.2.2 0 0 tTextN0 rfl).2 1 tTextN1 rfl rfl).1
     (by decide)⟩

lemma markerQ_iff (l : List Char) : markerQ l = true ↔ ∃ r, l = '*' :: '/' :: r := by
  unfold markerQ
  split
  · rename_i r
    simp
  · rename_i hno
    simp only [Bool.false_eq_true, false_iff, not_exists]
    intro r hr
    exact hno r hr

lemma endsSlashStar_iff (l : List Char) :
    endsSlashStar l = true ↔ ∃ r, l.reverse = '*' :: '/' :: r := by
  unfold endsSlashStar
  split
  · rename_i r heq
    simp only [true_iff]
    exact ⟨r, heq⟩
  · rename_i hno
    simp only [Bool.false_eq_true, false_iff, not_exists]
    intro r hr
    exact hno r hr

lemma takeWhile_slash (xs : List Char) :
    (xs ++ ['/']).takeWhile (fun c => c ≠ '/') = xs.takeWhile (fun c => c ≠ '/') := by
  induction xs with
  | nil => rfl
  | cons c tl ih =>
    rw [List.cons_append, List.takeWhile_cons, List.takeWhile_cons]
    by_cases hc : c = '/'
    · rw [if_neg (by simp [hc]), if_neg (by simp [hc])]
    · rw [if_pos (by simp [hc]), if_pos (by simp [hc]), ih]

lemma dropWhile_slash (xs : List Char) :
    (xs ++ ['/']).dropWhile (fun c => c ≠ '/') =
      xs.dropWhile (fun c => c ≠ '/') ++ ['/'] := by
  induction xs with
  | nil => rfl
  | cons c tl ih =>
    rw [List.cons_append, List.dropWhile_cons, List.dropWhile_cons]
    by_cases hc : c = '/'
    · rw [if_neg (by simp [hc]), if_neg (by simp [hc])]
      rfl
    · rw [if_pos (by simp [hc]), if_pos (by simp [hc]), ih]

lemma dropWhile_head_slash : ∀ (l : List Char) (c : Char) (r : List Char),
    l.dropWhile (fun x => x ≠ '/') = c :: r → c = '/' := by
  intro l
  induction l with
  | nil =>
    intro c r h
    simp at h
  | cons a tl ih =>
    intro c r h
    rw [List.dropWhile_cons] at h
    by_cases ha : a = '/'
    · rw [if_neg (by simp [ha])] at h
      injection h with h1 _
      rw [← h1]
      exact ha
    · rw [if_pos (by simp [ha])] at h
      exact ih c r h

lemma specParse_nil (f : Nat) (h : 1 ≤ f) : specParse f [] = some [] := by
  obtain ⟨f', rfl⟩ : ∃ f', f = f' + 1 := ⟨f - 1, by omega⟩
  rfl

lemma specParse_cons (f : Nat) (path : List Char) (hnp : path.isEmpty = false) :
    specParse (f + 1) path =
      (if ((if markerQ path then path.drop 2 else path).takeWhile
            (fun c => c ≠ '/')).isEmpty ∨
          256 ≤ ((if markerQ path then path.drop 2 else path).takeWhile
            (fun c => c ≠ '/')).length
       then none
       else
         match specParse f
             (match (if markerQ path then path.drop 2 else path).dropWhile
               (fun c => c ≠ '/') with
              | [] => ([] : List Char)
              | _ :: r => r) with
         | none => none
         | some segs =>
           some (((if markerQ path then MXML_DESCEND else MXML_DESCEND_FIRST : Int),
             (if markerQ path then path.drop 2 else path).takeWhile
               (fun c => c ≠ '/')) :: segs)) := by
  simp only [specParse, hnp]
  rw [if_neg Bool.false_ne_true]

lemma markerQ_append_slash (p : List Char) (hne : p ≠ []) (hstar : p ≠ ['*']) :
    markerQ (p ++ ['/']) = markerQ p := by
  cases p with
  | nil => exact absurd rfl hne
  | cons c1 tl =>
    cases tl with
    | nil =>
      have hc1 : c1 ≠ '*' := fun h => hstar (by rw [h])
      cases hm : markerQ ([c1] ++ ['/']) with
      | false =>
        cases hm2 : markerQ [c1] with
        | false => rfl
        | true =>
          obtain ⟨r, hr⟩ := (markerQ_iff _).mp hm2
          simp at hr
      | true =>
        obtain ⟨r, hr⟩ := (markerQ_iff _).mp hm
        simp at hr
        exact absurd hr.1 hc1
    | cons c2 tl2 =>
      show markerQ (c1 :: c2 :: (tl2 ++ ['/'])) = markerQ (c1 :: c2 :: tl2)
      cases hm : markerQ (c1 :: c2 :: tl2) with
      | true =>
        obtain ⟨r, hr⟩ := (markerQ_iff _).mp hm
        injection hr with h1 hr2
        injection hr2 with h2 _
        subst h1
        subst h2
        rfl
      | false =>
        cases hm2 : markerQ (c1 :: c2 :: (tl2 ++ ['/'])) with
        | false => rfl
        | true =>
          obtain ⟨r, hr⟩ := (markerQ_iff _).mp hm2
          injection hr with h1 hr2
          injection hr2 with h2 _
          subst h1
          subst h2
          have := (markerQ_iff ('*' :: '/' :: tl2)).mpr ⟨tl2, rfl⟩
          rw [hm] at this
          exact Bool.noConfusion this

lemma trailing_conds {p X r' : List Char} (hp : p = X ++ '/' :: r')
    (hlast : p.getLast? ≠ some '/') (hess : endsSlashStar p = false) :
    r' ≠ [] ∧ r'.getLast? ≠ some '/' ∧ r' ≠ ['*'] ∧ endsSlashStar r' = false ∧
      r'.length + 1 ≤ p.length := by
  have hne : r' ≠ [] := by
    rintro rfl
    apply hlast
    rw [hp]
    simp
  have hlen : r'.length + 1 ≤ p.length := by
    rw [hp]
    simp [List.length_append]
  have hlast' : p.getLast? = r'.getLast? := by
    rw [hp, show ('/' :: r') = ['/'] ++ r' from rfl, ← List.append_assoc]
    exact List.getLast?_append_of_ne_nil _ hne
  refine ⟨hne, by rw [← hlast']; exact hlast, ?_, ?_, hlen⟩
  · rintro rfl
    have : endsSlashStar p = true := (endsSlashStar_iff p).mpr
      ⟨X.reverse, by rw [hp]; simp⟩
    rw [this] at hess
    exact Bool.noConfusion hess
  · cases hbe : endsSlashStar r' with
    | false => rfl
    | true =>
      obtain ⟨rr, hrr⟩ := (endsSlashStar_iff r').mp hbe
      have : endsSlashStar p = true := (endsSlashStar_iff p).mpr
        ⟨rr ++ '/' :: X.reverse, by rw [hp]; simp [hrr]⟩
      rw [this] at hess
      exact Bool.noConfusion hess

lemma specParse_trailing :
    ∀ (N : Nat) (p : List Char), p.length ≤ N →
      p ≠ [] → p.getLast? ≠ some '/' → p ≠ ['*'] → endsSlashStar p = false →
      ∀ f g, p.length + 1 < f → p.length < g →
        specParse f (p ++ ['/']) = specParse g p := by
  intro N
  induction N with
  | zero =>
    intro p hN hne _ _ _ _ _ _ _
    exact absurd (List.length_eq_zero.mp (Nat.le_zero.mp hN)) hne
  | succ N ih =>
    intro p hN hne hlast hstar hess f g hf hg
    have hple : 1 ≤ p.length := List.length_pos.mpr hne
    obtain ⟨f', rfl⟩ : ∃ f', f = f' + 1 := ⟨f - 1, by omega⟩
    obtain ⟨g', rfl⟩ : ∃ g', g = g' + 1 := ⟨g - 1, by omega⟩
    have hpe : p.isEmpty = false := by
      cases p with
      | nil => exact absurd rfl hne
      | cons a l => rfl
    have hpe2 : (p ++ ['/']).isEmpty = false := by
      cases p <;> rfl
    rw [specParse_cons f' _ hpe2, specParse_cons g' _ hpe]
    have hmk : markerQ (p ++ ['/']) = markerQ p := markerQ_append_slash p hne hstar
    rw [hmk]
    have hrest : (if markerQ p then (p ++ ['/']).drop 2 else (p ++ ['/'])) =
        (if markerQ p then p.drop 2 else p) ++ ['/'] := by
      cases hm : markerQ p with
      | true =>
        obtain ⟨pr, hpr⟩ := (markerQ_iff p).mp hm
        rw [hpr]
        simp
      | false => simp
    rw [hrest]
    rw [takeWhile_slash, dropWhile_slash]
    by_cases hbad : (((if markerQ p then p.drop 2 else p).takeWhile
        (fun c => c ≠ '/')).isEmpty = true) ∨
        256 ≤ ((if markerQ p then p.drop 2 else p).takeWhile
          (fun c => c ≠ '/')).length
    · rw [if_pos hbad, if_pos hbad]
    · rw [if_neg hbad, if_neg hbad]
      cases hdw : (if markerQ p then p.drop 2 else p).dropWhile
          (fun c => c ≠ '/') with
      | nil =>
        simp only [List.nil_append]
        rw [specParse_nil f' (by omega), specParse_nil g' (by omega)]
      | cons c r' =>
        obtain rfl : c = '/' := dropWhile_head_slash _ c r' hdw
        have hsplit : (if markerQ p then p.drop 2 else p) =
            ((if markerQ p then p.drop 2 else p).takeWhile (fun c => c ≠ '/')) ++
              '/' :: r' := by
          conv_lhs => rw [← List.takeWhile_append_dropWhile
            (fun c => decide (c ≠ '/')) (if markerQ p then p.drop 2 else p)]
          rw [hdw]
        have hdecomp : ∃ X, p = X ++ '/' :: r' := by
          cases hm : markerQ p with
          | false =>
            refine ⟨(if markerQ p then p.drop 2 else p).takeWhile
              (fun c => c ≠ '/'), ?_⟩
            rw [← hsplit, hm]
            simp
          | true =>
            obtain ⟨pr, hpr⟩ := (markerQ_iff p).mp hm
            have hRpr : (if markerQ p then p.drop 2 else p) = pr := by
              rw [if_pos hm, hpr]
              rfl
            rw [hRpr] at hsplit
            refine ⟨'*' :: '/' :: (pr.takeWhile (fun c => c ≠ '/')), ?_⟩
            rw [hpr]
            conv_lhs => rw [hsplit]
            rfl
        obtain ⟨X, hpX⟩ := hdecomp
        obtain ⟨hne', hlast', hstar', hess', hlen'⟩ := trailing_conds hpX hlast hess
        have hIH := ih r' (by omega) hne' hlast' hstar' hess' f' g'
          (by omega) (by omega)
        simp only [List.cons_append, hIH]

/-- C10 counterexample: with an element literally named `*`, the path `a/*`
resolves to that element, but `a/*/` parses its tail `*/` as the wildcard
marker followed by an empty segment and fails — the trailing slash changes
the result. -/
theorem findPath_trailing_slash_cex :
    mxmlFindPath tStar 5 (some 0) (some ['a', '/', '*']) = some 2 ∧
    mxmlFindPath tStar 5 (some 0) (some ['a', '/', '*', '/']) = none := by
  exact ⟨by decide, by decide⟩

/-- C10 (amended): for every non-empty path ending in exactly one trailing
slash, removing the trailing slash does not change the result of
`mxmlFindPath`, provided the final segment position is not the single
character `*` (in which case the trailing slash turns it into the wildcard
marker `*/`): the empty final position after a trailing slash is never
treated as a segment. -/
theorem findPath_trailing_slash (t : MxmlTree) (ef : Nat) (ti : Nat)
    (p : List Char) (hne : p ≠ []) (hlast : p.getLast? ≠ some '/')
    (hstar : p ≠ ['*']) (hess : endsSlashStar p = false) :
    mxmlFindPath t ef (some ti) (some (p ++ ['/'])) =
      mxmlFindPath t ef (some ti) (some p) := by
  have hpe : p.isEmpty = false := by
    cases p with
    | nil => exact absurd rfl hne
    | cons a l => rfl
  have hpe2 : (p ++ ['/']).isEmpty = false := by
    cases p <;> rfl
  simp only [mxmlFindPath, hpe, hpe2]
  rw [if_neg Bool.false_ne_true, if_neg Bool.false_ne_true]
  rw [findPathLoop_eq_spec, findPathLoop_eq_spec]
  rw [show (p ++ ['/']).length + 1 = p.length + 1 + 1 by simp]
  rw [specParse_trailing p.length p (le_refl _) hne hlast hstar hess
    (p.length + 1 + 1) (p.length + 1) (by omega) (by omega)]

/-- C10 witness: `a/` resolves exactly as `a`. -/
theorem findPath_trailing_slash_wit :
    mxmlFindPath tAttr 5 (some 0) (some ['a', '/']) =
      mxmlFindPath tAttr 5 (some 0) (some ['a']) :=
  findPath_trailing_slash tAttr 5 0 ['a'] (by decide) (by decide) (by decide)
    (by decide)
